import Mathlib

/-!
Verification of the archive codec core of the include_assets repository.

The Rust sources are shallowly embedded as follows.

Byte buffers (Rust Vec of u8, byte slices) are Lean lists of natural numbers;
a byte produced by the program is always below 256.  Machine integers are
natural numbers with explicit bounds: u32 values are naturals at most
u32Max, usize values are naturals at most usizeMax.  Fallible Rust code is
modelled with Option or Except; a Rust panic (assert failure, expect,
unwrap, out of bounds indexing) is modelled as the value none of an
enclosing Option.

The Codec trait (include_assets_decode/src/codec.rs) is modelled as a
structure of two functions.  The concrete compression algorithms other than
Uncompressed live in external crates (lz4_flex, zstd, yazi), so they are
kept abstract: Codec.Lawful records exactly the contract the repository
relies on, namely that decompress_checked run on the output of compress
with the original length reproduces the input, and that a successful
decompress_checked fills a destination of the requested length.  The
Uncompressed codec from the repository is embedded concretely and proved
lawful.

The checksum function (blake2b from the external blake2 crate, wrapped in
include_assets_decode/src/checksum.rs) is kept abstract as an explicit
function parameter named hash; the checking logic around it is embedded
from the source.
-/

/-- Largest value of a Rust u32, that is 2 to the 32 minus one. -/
def u32Max : Nat := 4294967295

/-- Largest value of a 64 bit Rust usize. -/
def usizeMax : Nat := 18446744073709551615

/-- Little endian four byte encoding of a u32 value, as produced by
u32.to_le_bytes in compress_sizes (include_assets_encode/src/common.rs). -/
def toLE4 (n : Nat) : List Nat :=
  [n % 256, n / 256 % 256, n / 65536 % 256, n / 16777216 % 256]

/-- Reconstruction of a u32 from four little endian bytes, as performed by
u32.from_le_bytes in decompress_ranges (include_assets_decode/src/common.rs). -/
def fromLE4 (b0 b1 b2 b3 : Nat) : Nat :=
  b0 + 256 * b1 + 65536 * b2 + 16777216 * b3

/-- Checksums (include_assets_decode/src/checksum.rs) are 64 byte digests;
they are modelled as byte lists so that the digest function can stay
abstract. -/
abbrev Checksum := List Nat

/-- Concatenation of a list of byte buffers, as built by the loops in
prepare_named_archive and prepare_asset_archive. -/
def listJoin : List (List Nat) → List Nat
  | [] => []
  | l :: rest => l ++ listJoin rest

/-- Model of the Codec trait of include_assets_decode/src/codec.rs.
compress maps data to the compressed buffer (none models a compression
error).  decompressChecked takes the compressed source and the length of
the destination buffer and returns the decompressed contents; none models
a decompression error, which the repository escalates to a panic through
decompress and decompress_with_length. -/
structure Codec where
  compress : List Nat → Option (List Nat)
  decompressChecked : List Nat → Nat → Option (List Nat)

/-- Model of Codec::decompress_with_length: decompress into a fresh buffer
of the given length; the Rust version panics where this returns none. -/
def Codec.decompressWithLength (c : Codec) (src : List Nat) (len : Nat) : Option (List Nat) :=
  c.decompressChecked src len

/-- Contract satisfied by every codec shipped with the repository: the
compression of the external algorithms is lossless, and decompression
checks the destination length.  The Uncompressed codec is proved lawful
below; for lz4, zstd and deflate this is the guarantee of the external
crates. -/
structure Codec.Lawful (c : Codec) : Prop where
  roundtrip : ∀ d comp, c.compress d = some comp →
    c.decompressChecked comp d.length = some d
  decompressLen : ∀ src len out, c.decompressChecked src len = some out →
    out.length = len

/-- Embedding of the Uncompressed codec of include_assets_decode/src/codec.rs:
compress copies the data, decompress_checked copies src into dst and fails
exactly when the two lengths differ. -/
def uncompressedCodec : Codec where
  compress d := some d
  decompressChecked src len := if src.length = len then some src else none

/-- UTF-8 validity of a byte list, mirroring the check done by
std.str.from_utf8 inside decompress_names.  The cases follow the byte
ranges of RFC 3629. -/
def utf8Valid : List Nat → Bool
  | [] => true
  | b :: rest =>
    if b ≤ 127 then utf8Valid rest
    else if 194 ≤ b ∧ b ≤ 223 then
      match rest with
      | c1 :: rest2 => decide (128 ≤ c1 ∧ c1 ≤ 191) && utf8Valid rest2
      | [] => false
    else if b = 224 then
      match rest with
      | c1 :: c2 :: rest2 =>
        decide (160 ≤ c1 ∧ c1 ≤ 191) && decide (128 ≤ c2 ∧ c2 ≤ 191) && utf8Valid rest2
      | _ => false
    else if 225 ≤ b ∧ b ≤ 236 then
      match rest with
      | c1 :: c2 :: rest2 =>
        decide (128 ≤ c1 ∧ c1 ≤ 191) && decide (128 ≤ c2 ∧ c2 ≤ 191) && utf8Valid rest2
      | _ => false
    else if b = 237 then
      match rest with
      | c1 :: c2 :: rest2 =>
        decide (128 ≤ c1 ∧ c1 ≤ 159) && decide (128 ≤ c2 ∧ c2 ≤ 191) && utf8Valid rest2
      | _ => false
    else if 238 ≤ b ∧ b ≤ 239 then
      match rest with
      | c1 :: c2 :: rest2 =>
        decide (128 ≤ c1 ∧ c1 ≤ 191) && decide (128 ≤ c2 ∧ c2 ≤ 191) && utf8Valid rest2
      | _ => false
    else if b = 240 then
      match rest with
      | c1 :: c2 :: c3 :: rest2 =>
        decide (144 ≤ c1 ∧ c1 ≤ 191) && decide (128 ≤ c2 ∧ c2 ≤ 191) &&
          decide (128 ≤ c3 ∧ c3 ≤ 191) && utf8Valid rest2
      | _ => false
    else if 241 ≤ b ∧ b ≤ 243 then
      match rest with
      | c1 :: c2 :: c3 :: rest2 =>
        decide (128 ≤ c1 ∧ c1 ≤ 191) && decide (128 ≤ c2 ∧ c2 ≤ 191) &&
          decide (128 ≤ c3 ∧ c3 ≤ 191) && utf8Valid rest2
      | _ => false
    else if b = 244 then
      match rest with
      | c1 :: c2 :: c3 :: rest2 =>
        decide (128 ≤ c1 ∧ c1 ≤ 143) && decide (128 ≤ c2 ∧ c2 ≤ 191) &&
          decide (128 ≤ c3 ∧ c3 ≤ 191) && utf8Valid rest2
      | _ => false
    else false

/-- Splitting a byte list at null bytes, mirroring slice::split with the
predicate b == 0 as used in decompress_names.  On the empty list Rust
split yields a single empty chunk, hence the base case. -/
def splitOnZero : List Nat → List (List Nat)
  | [] => [[]]
  | b :: rest =>
    if b = 0 then [] :: splitOnZero rest
    else
      match splitOnZero rest with
      | [] => [[b]]
      | h :: t => (b :: h) :: t

/-- Joining of asset names with single null byte separators, no leading or
trailing separator, as built by the loop in compress_names
(include_assets_encode/src/common.rs). -/
def joinWithZero : List (List Nat) → List Nat
  | [] => []
  | [n] => n
  | n :: rest => n ++ 0 :: joinWithZero rest

/-- Accumulation loop of compress_sizes: each asset size is converted to a
u32 (failing when it does not fit, which models the per asset error) and
appended as four little endian bytes. -/
def sizesVecOf : List Nat → Option (List Nat)
  | [] => some []
  | s :: rest =>
    if s ≤ u32Max then (sizesVecOf rest).map (fun v => toLE4 s ++ v) else none

/-- Embedding of compress_sizes of include_assets_encode/src/common.rs:
build the little endian size stream, reject it when its length does not
fit in a u32, then compress it. -/
def compress_sizes (c : Codec) (sizes : List Nat) : Option (List Nat) :=
  match sizesVecOf sizes with
  | none => none
  | some vec => if vec.length ≤ u32Max then c.compress vec else none

/-- Embedding of compress_names of include_assets_encode/src/common.rs:
names must be free of null bytes (the source asserts this, so a violation
is a panic, modelled as none), the joined stream length must fit in a u32,
and the joined stream is compressed.  The returned pair is the compressed
stream together with the uncompressed length. -/
def compress_names (c : Codec) (names : List (List Nat)) : Option (List Nat × Nat) :=
  if names.all (fun n => n.all (fun b => b != 0)) then
    if (joinWithZero names).length ≤ u32Max then
      (c.compress (joinWithZero names)).map (fun comp => (comp, (joinWithZero names).length))
    else none
  else none

/-- Package produced by prepare_named_archive, mirroring the NamedArchive
struct of include_assets_encode/src/named.rs.  The codec identity travels
separately in this embedding (in the generated Rust code it is a field of
the decode side CompressedNamedArchive). -/
structure NamedArchivePkg where
  compressedData : List Nat
  uncompressedDataSize : Nat
  compressedNames : List Nat
  uncompressedNamesSize : Nat
  compressedSizes : List Nat
  checksums : List Checksum
  deriving DecidableEq

/-- Embedding of prepare_named_archive of include_assets_encode/src/named.rs.
The steps mirror the source: panic (none) on a duplicate name, compress
the names and the sizes, compute the checksums, concatenate and compress
the data, and finally reject the package when the uncompressed data length
does not fit in a u32.  The digest function is the abstract hash
parameter. -/
def prepare_named_archive (hash : List Nat → Checksum) (c : Codec)
    (assets : List (List Nat × List Nat)) : Option NamedArchivePkg :=
  if (assets.map Prod.fst).Nodup then
    match compress_names c (assets.map Prod.fst) with
    | none => none
    | some (compNames, namesSize) =>
      match compress_sizes c (assets.map fun a => a.2.length) with
      | none => none
      | some compSizes =>
        match c.compress (listJoin (assets.map Prod.snd)) with
        | none => none
        | some compData =>
          if (listJoin (assets.map Prod.snd)).length ≤ u32Max then
            some { compressedData := compData
                   uncompressedDataSize := (listJoin (assets.map Prod.snd)).length
                   compressedNames := compNames
                   uncompressedNamesSize := namesSize
                   compressedSizes := compSizes
                   checksums := assets.map fun a => hash a.2 }
          else none
  else none

/-- Embedding of decompress_names of include_assets_decode/src/common.rs:
decompress to the declared length, split at null bytes, and require every
chunk to be valid UTF-8 (the source uses expect, so a violation is a
panic, modelled as none). -/
def decompress_names (c : Codec) (comp : List Nat) (len : Nat) : Option (List (List Nat)) :=
  match c.decompressChecked comp len with
  | none => none
  | some bytes =>
    if (splitOnZero bytes).all utf8Valid then some (splitOnZero bytes) else none

/-- Loop of decompress_ranges over the decompressed length stream: consume
four bytes at a time, decode a u32 length, and extend the previous end by
it; the checked_add of the source panics (none) when the new end exceeds
u32Max.  A trailing chunk shorter than four bytes is the panic of the
try_into conversion. -/
def rangesGo (start : Nat) : List Nat → Option (List (Nat × Nat))
  | b0 :: b1 :: b2 :: b3 :: rest =>
    if start + fromLE4 b0 b1 b2 b3 ≤ u32Max then
      (rangesGo (start + fromLE4 b0 b1 b2 b3) rest).map
        (fun rs => (start, start + fromLE4 b0 b1 b2 b3) :: rs)
    else none
  | [] => some []
  | _ => none

/-- Embedding of decompress_ranges of include_assets_decode/src/common.rs:
the number of entries times four is the expected decompressed length (the
checked_mul of the source panics on usize overflow), the length stream is
decompressed, and the ranges are rebuilt by cumulative sums. -/
def decompress_ranges (c : Codec) (compLengths : List Nat) (n : Nat) : Option (List (Nat × Nat)) :=
  if n * 4 ≤ usizeMax then
    match c.decompressChecked compLengths (n * 4) with
    | none => none
    | some bytes => rangesGo 0 bytes
  else none

/-- Checked slice data[s..e] of a byte buffer: Rust slicing panics when the
bounds are reversed or past the end, modelled as none. -/
def sliceChecked (data : List Nat) (s e : Nat) : Option (List Nat) :=
  if s ≤ e ∧ e ≤ data.length then some ((data.drop s).take (e - s)) else none

/-- First match lookup in the name to range table.  The source stores the
table in a HashMap built by collect over zipped names and ranges; names
are unique in every package the builder produces, so the first match
models the map lookup. -/
def lookupRange : List (List Nat × (Nat × Nat)) → List Nat → Option (Nat × Nat)
  | [], _ => none
  | (nm, r) :: rest, key => if nm = key then some r else lookupRange rest key

/-- Loaded named archive, mirroring NamedArchive of
include_assets_decode/src/named.rs: the decompressed data buffer and the
name to range table. -/
structure NamedArchive where
  data : List Nat
  ranges : List (List Nat × (Nat × Nat))
  deriving DecidableEq

/-- Embedding of NamedArchive::load of include_assets_decode/src/named.rs:
decompress the data, the names and the ranges, assert that the name count
equals the range count, assert that the end of the final range (0 when
there is none) equals the declared uncompressed data size, and zip names
with ranges.  All failures are panics in the source, modelled as none. -/
def NamedArchive.load (c : Codec) (pkg : NamedArchivePkg) : Option NamedArchive :=
  match c.decompressChecked pkg.compressedData pkg.uncompressedDataSize with
  | none => none
  | some data =>
    match decompress_names c pkg.compressedNames pkg.uncompressedNamesSize with
    | none => none
    | some names =>
      match decompress_ranges c pkg.compressedSizes pkg.checksums.length with
      | none => none
      | some ranges =>
        if names.length = ranges.length then
          if ((ranges.getLast?).map Prod.snd).getD 0 = pkg.uncompressedDataSize then
            some { data := data, ranges := names.zip ranges }
          else none
        else none

/-- Embedding of NamedArchive::get: look the name up in the table and slice
the data buffer with its range.  The outer none models a panic of the
slicing; some none models the Rust return value None for an absent name. -/
def NamedArchive.get (a : NamedArchive) (name : List Nat) : Option (Option (List Nat)) :=
  match lookupRange a.ranges name with
  | none => some none
  | some r => (sliceChecked a.data r.1 r.2).map some

/-- Embedding of NamedArchive::number_of_assets. -/
def NamedArchive.numberOfAssets (a : NamedArchive) : Nat :=
  a.ranges.length

/-- Embedding of NamedArchive::contains, defined in the source as
get(name).is_some(). -/
def NamedArchive.containsName (a : NamedArchive) (name : List Nat) : Option Bool :=
  (a.get name).map Option.isSome

/-- Embedding of the Index implementation for NamedArchive: return the
bytes of a present asset and panic (none) for an absent one (and for a
slicing panic inside get). -/
def NamedArchive.indexGet (a : NamedArchive) (name : List Nat) : Option (List Nat) :=
  match a.get name with
  | some (some d) => some d
  | some none => none
  | none => none

/-- Mismatch report of include_assets_decode/src/checksum.rs, carrying the
expected digest and the actual digest. -/
structure Mismatch where
  expected : Checksum
  actual : Checksum
  deriving DecidableEq

/-- Embedding of check of include_assets_decode/src/checksum.rs with the
digest function as the abstract hash parameter. -/
def check (hash : List Nat → Checksum) (data : List Nat) (expected : Checksum) :
    Except Mismatch Unit :=
  if hash data ≠ expected then Except.error ⟨expected, hash data⟩ else Except.ok ()

/-- Compile time constants of a derived AssetEnum instance
(include_assets_decode/src/enums.rs): the compressed data, the cumulative
end offsets, the checksums, and the codec. -/
structure AssetEnumSpec where
  data : List Nat
  dataEndOffsets : List Nat
  checksums : List Checksum
  codec : Codec

/-- Embedding of EnumArchive::lookup: the end is DATA_END_OFFSETS at i, the
start is the previous end offset or 0 for i equal 0, and the data buffer
is sliced with these bounds; indexing or slicing out of bounds is a panic,
modelled as none. -/
def enumLookup (offsets : List Nat) (data : List Nat) (i : Nat) : Option (List Nat) :=
  match offsets[i]? with
  | none => none
  | some e =>
    match (if i = 0 then some 0 else offsets[i - 1]?) with
    | none => none
    | some s => sliceChecked data s e

/-- Outcome of AssetEnum::load: the source panics through expect in all
three failure cases; the mismatch case carries the report of check. -/
inductive EnumLoadErr where
  | decompressFailed
  | lookupFailed
  | mismatch (m : Mismatch)
  deriving DecidableEq

/-- Checksum loop of AssetEnum::load: for every ordinal in order, look the
slice up and compare its digest with the recorded checksum; the first
mismatch aborts the load with its report. -/
def checkAll (hash : List Nat → Checksum) (offsets data : List Nat) :
    Nat → List Checksum → Except EnumLoadErr Unit
  | _, [] => Except.ok ()
  | i, cs :: rest =>
    match enumLookup offsets data i with
    | none => Except.error EnumLoadErr.lookupFailed
    | some bytes =>
      match check hash bytes cs with
      | Except.error m => Except.error (EnumLoadErr.mismatch m)
      | Except.ok _ => checkAll hash offsets data (i + 1) rest

/-- Embedding of AssetEnum::load of include_assets_decode/src/enums.rs:
decompress the data to the length given by the final end offset (0 when
there is none), then verify every checksum in ordinal order.  The loaded
archive is represented by its decompressed data buffer. -/
def enumLoad (hash : List Nat → Checksum) (E : AssetEnumSpec) : Except EnumLoadErr (List Nat) :=
  match E.codec.decompressChecked E.data ((E.dataEndOffsets.getLast?).getD 0) with
  | none => Except.error EnumLoadErr.decompressFailed
  | some data =>
    match checkAll hash E.dataEndOffsets data 0 E.checksums with
    | Except.error e => Except.error e
    | Except.ok _ => Except.ok data

/-- Loop of EnumArchive::map over a list of ordinals: look each slice up
and apply the transform eagerly in order; a lookup panic is none. -/
def enumMapGo {α : Type} (offsets data : List Nat) (f : List Nat → α) :
    List Nat → Option (List α)
  | [] => some []
  | i :: rest =>
    match enumLookup offsets data i with
    | none => none
    | some bytes => (enumMapGo offsets data f rest).map (fun ts => f bytes :: ts)

/-- Embedding of EnumArchive::map: the ordinals are 0 up to the checksum
count, as in the source. -/
def enumMap {α : Type} (E : AssetEnumSpec) (data : List Nat) (f : List Nat → α) :
    Option (List α) :=
  enumMapGo E.dataEndOffsets data f (List.range E.checksums.length)

/-- Loop of EnumArchive::try_map: look each slice up, apply the fallible
transform, and short circuit on the first error, producing no table. -/
def enumTryMapGo {α ε : Type} (offsets data : List Nat) (f : List Nat → Except ε α) :
    List Nat → Option (Except ε (List α))
  | [] => some (Except.ok [])
  | i :: rest =>
    match enumLookup offsets data i with
    | none => none
    | some bytes =>
      match f bytes with
      | Except.error e => some (Except.error e)
      | Except.ok t =>
        match enumTryMapGo offsets data f rest with
        | none => none
        | some (Except.error e) => some (Except.error e)
        | some (Except.ok ts) => some (Except.ok (t :: ts))

/-- Embedding of EnumArchive::try_map over the ordinals 0 up to the
checksum count. -/
def enumTryMap {α ε : Type} (E : AssetEnumSpec) (data : List Nat) (f : List Nat → Except ε α) :
    Option (Except ε (List α)) :=
  enumTryMapGo E.dataEndOffsets data f (List.range E.checksums.length)

/-- Cumulative range construction as the specification describes it in
plain words: start at 0, each length extends the previous end.  This is
the reference definition the loader output is compared with. -/
def cumRanges (start : Nat) : List Nat → List (Nat × Nat)
  | [] => []
  | s :: rest => (start, start + s) :: cumRanges (start + s) rest

/-- Strict lexicographic order on byte lists, used to state the canonical
sorted order of asset names. -/
def lexLt : List Nat → List Nat → Bool
  | [], [] => false
  | [], _ :: _ => true
  | _ :: _, [] => false
  | a :: as0, b :: bs => if a < b then true else if a = b then lexLt as0 bs else false

/-- Concrete digest function used to instantiate the abstract hash
parameter in witnesses: the length of the data as a one byte digest. -/
def lengthChecksum (d : List Nat) : Checksum := [d.length]

/-- Injective numbering of byte lists, digits byte plus one in base 257.
Used to bound the number of distinct short names in the builder limit
argument. -/
def encName (l : List Nat) : Nat :=
  l.foldr (fun byte acc => acc * 257 + (byte + 1)) 0

/-! Lemmas about the little endian size codec. -/

theorem fromLE4_toLE4 (s : Nat) (h : s ≤ u32Max) :
    fromLE4 (s % 256) (s / 256 % 256) (s / 65536 % 256) (s / 16777216 % 256) = s := by
  unfold fromLE4 u32Max at *
  omega

theorem listJoin_length (ls : List (List Nat)) :
    (listJoin ls).length = (ls.map List.length).sum := by
  induction ls with
  | nil => rfl
  | cons l rest ih => simp [listJoin, ih]

theorem listJoin_toLE4_length (sizes : List Nat) :
    (listJoin (sizes.map toLE4)).length = 4 * sizes.length := by
  induction sizes with
  | nil => rfl
  | cons s rest ih => simp [listJoin, toLE4, ih]; omega

theorem sizesVecOf_eq_some {sizes v : List Nat} (h : sizesVecOf sizes = some v) :
    (∀ s ∈ sizes, s ≤ u32Max) ∧ v = listJoin (sizes.map toLE4) := by
  induction sizes generalizing v with
  | nil =>
    simp [sizesVecOf] at h
    subst h
    exact ⟨by simp, rfl⟩
  | cons s rest ih =>
    by_cases hs : s ≤ u32Max
    · simp [sizesVecOf, hs] at h
      obtain ⟨w, hw, hv⟩ := h
      obtain ⟨hb, he⟩ := ih hw
      refine ⟨?_, ?_⟩
      · intro x hx
        rcases List.mem_cons.mp hx with rfl | hx
        · exact hs
        · exact hb x hx
      · rw [← hv, he]; rfl
    · simp [sizesVecOf, hs] at h

theorem sizesVecOf_of_bounded {sizes : List Nat} (h : ∀ s ∈ sizes, s ≤ u32Max) :
    sizesVecOf sizes = some (listJoin (sizes.map toLE4)) := by
  induction sizes with
  | nil => rfl
  | cons s rest ih =>
    have hs : s ≤ u32Max := h s (List.mem_cons_self _ _)
    rw [sizesVecOf, if_pos hs, ih fun x hx => h x (List.mem_cons_of_mem _ hx)]
    rfl

/-! Lemmas about null separated name streams. -/

theorem splitOnZero_nullfree {n : List Nat} (h : ∀ b ∈ n, b ≠ 0) :
    splitOnZero n = [n] := by
  induction n with
  | nil => rfl
  | cons b rest ih =>
    have hb : b ≠ 0 := h b (List.mem_cons_self _ _)
    rw [splitOnZero, if_neg hb, ih fun x hx => h x (List.mem_cons_of_mem _ hx)]

theorem splitOnZero_sep {n l : List Nat} (h : ∀ b ∈ n, b ≠ 0) :
    splitOnZero (n ++ 0 :: l) = n :: splitOnZero l := by
  induction n with
  | nil => simp [splitOnZero]
  | cons b rest ih =>
    have hb : b ≠ 0 := h b (List.mem_cons_self _ _)
    rw [List.cons_append, splitOnZero, if_neg hb,
      ih fun x hx => h x (List.mem_cons_of_mem _ hx)]

theorem splitOnZero_join {ns : List (List Nat)} (hne : ns ≠ [])
    (h : ∀ n ∈ ns, ∀ b ∈ n, b ≠ 0) : splitOnZero (joinWithZero ns) = ns := by
  induction ns with
  | nil => exact absurd rfl hne
  | cons n rest ih =>
    cases rest with
    | nil => exact splitOnZero_nullfree (h n (List.mem_cons_self _ _))
    | cons m rest2 =>
      rw [show joinWithZero (n :: m :: rest2) = n ++ 0 :: joinWithZero (m :: rest2) from rfl,
        splitOnZero_sep (h n (List.mem_cons_self _ _)),
        ih (by simp) fun x hx => h x (List.mem_cons_of_mem _ hx)]

theorem joinWithZero_length {ns : List (List Nat)} (hne : ns ≠ []) :
    (joinWithZero ns).length = (ns.map List.length).sum + (ns.length - 1) := by
  induction ns with
  | nil => exact absurd rfl hne
  | cons n rest ih =>
    cases rest with
    | nil => simp [joinWithZero]
    | cons m rest2 =>
      have := ih (by simp)
      rw [show joinWithZero (n :: m :: rest2) = n ++ 0 :: joinWithZero (m :: rest2) from rfl]
      simp only [List.length_append, List.length_cons, List.map_cons, List.sum_cons] at *
      omega

/-! Lemmas about range reconstruction. -/

theorem rangesGo_encode : ∀ (sizes : List Nat) (start : Nat),
    start + sizes.sum ≤ u32Max →
    rangesGo start (listJoin (sizes.map toLE4)) = some (cumRanges start sizes) := by
  intro sizes
  induction sizes with
  | nil => intro start _; rfl
  | cons s rest ih =>
    intro start hsum
    simp only [List.sum_cons] at hsum
    have hs : s ≤ u32Max := by omega
    have hstep : start + s ≤ u32Max := by omega
    show rangesGo start (toLE4 s ++ listJoin (rest.map toLE4)) = _
    rw [show toLE4 s ++ listJoin (rest.map toLE4) =
        s % 256 :: (s / 256 % 256) :: (s / 65536 % 256) :: (s / 16777216 % 256) ::
          listJoin (rest.map toLE4) from rfl]
    rw [rangesGo, fromLE4_toLE4 s hs, if_pos hstep, ih (start + s) (by omega)]
    rfl

theorem cumRanges_length (start : Nat) (sizes : List Nat) :
    (cumRanges start sizes).length = sizes.length := by
  induction sizes generalizing start with
  | nil => rfl
  | cons s rest ih => simp [cumRanges, ih]

theorem cumRanges_lastEnd : ∀ (sizes : List Nat), sizes ≠ [] → ∀ (start : Nat),
    ((cumRanges start sizes).getLast?).map Prod.snd = some (start + sizes.sum) := by
  intro sizes
  induction sizes with
  | nil => intro h; exact absurd rfl h
  | cons s rest ih =>
    intro _ start
    cases rest with
    | nil => simp [cumRanges]
    | cons m rest2 =>
      rw [show cumRanges start (s :: m :: rest2) =
          (start, start + s) :: (start + s, start + s + m) ::
            cumRanges (start + s + m) rest2 from rfl]
      rw [List.getLast?_cons_cons]
      have := ih (by simp) (start + s)
      rw [show cumRanges (start + s) (m :: rest2) =
          (start + s, start + s + m) :: cumRanges (start + s + m) rest2 from rfl] at this
      rw [this]
      simp [List.sum_cons]
      omega

/-! Core lemma for name lookup in a built archive: with unique names, the
zipped table finds the cumulative range of each asset and slicing the
concatenated data with it recovers the asset bytes. -/

theorem lookup_slice_core :
    ∀ (assets : List (List Nat × List Nat)) (pre : List Nat),
    (assets.map Prod.fst).Nodup →
    ∀ nm bl, (nm, bl) ∈ assets →
    ∃ s e, lookupRange ((assets.map Prod.fst).zip
        (cumRanges pre.length (assets.map fun a => a.2.length))) nm = some (s, e) ∧
      sliceChecked (pre ++ listJoin (assets.map Prod.snd)) s e = some bl := by
  intro assets
  induction assets with
  | nil => intro pre _ nm bl hmem; exact absurd hmem (List.not_mem_nil _)
  | cons hd tl ih =>
    intro pre hnd nm bl hmem
    obtain ⟨n0, d0⟩ := hd
    rw [show ((n0, d0) :: tl).map Prod.fst = n0 :: tl.map Prod.fst from rfl] at hnd ⊢
    rw [show ((n0, d0) :: tl).map (fun a => a.2.length) =
        d0.length :: tl.map (fun a => a.2.length) from rfl]
    rw [show cumRanges pre.length (d0.length :: tl.map fun a => a.2.length) =
        (pre.length, pre.length + d0.length) ::
          cumRanges (pre.length + d0.length) (tl.map fun a => a.2.length) from rfl]
    rw [show ((n0, d0) :: tl).map Prod.snd = d0 :: tl.map Prod.snd from rfl]
    rcases List.mem_cons.mp hmem with heq | hmem2
    · injection heq with hn hb
      subst hn
      subst hb
      refine ⟨pre.length, pre.length + bl.length, ?_, ?_⟩
      · rw [List.zip_cons_cons, lookupRange, if_pos rfl]
      · rw [sliceChecked, if_pos ?bounds]
        case bounds =>
          constructor
          · omega
          · simp [listJoin, List.length_append]
        have h1 : (pre ++ listJoin (bl :: tl.map Prod.snd)) =
            pre ++ (bl ++ listJoin (tl.map Prod.snd)) := rfl
        rw [h1, List.drop_left pre]
        have h2 : pre.length + bl.length - pre.length = bl.length := by omega
        rw [h2, List.take_left bl]
    · have hne : n0 ≠ nm := by
        intro hcontra
        have : nm ∈ tl.map Prod.fst :=
          List.mem_map.mpr ⟨(nm, bl), hmem2, rfl⟩
        rw [hcontra] at hnd
        exact (List.nodup_cons.mp hnd).1 this
      have hnd2 : (tl.map Prod.fst).Nodup := (List.nodup_cons.mp hnd).2
      obtain ⟨s, e, hl, hs⟩ := ih (pre ++ d0) hnd2 nm bl hmem2
      rw [List.length_append] at hl
      rw [List.append_assoc] at hs
      refine ⟨s, e, ?_, hs⟩
      rw [List.zip_cons_cons, lookupRange, if_neg hne]
      exact hl


/-! Every successful run of the range loop is a cumulative range list. -/

theorem rangesGo_to_cum : ∀ (n : Nat) (bytes : List Nat), bytes.length ≤ n →
    ∀ (start : Nat) (rs : List (Nat × Nat)), rangesGo start bytes = some rs →
    ∃ L : List Nat, rs = cumRanges start L := by
  intro n
  induction n with
  | zero =>
    intro bytes hlen start rs h
    have : bytes = [] := List.eq_nil_of_length_eq_zero (Nat.le_zero.mp hlen)
    subst this
    rw [rangesGo] at h
    cases h
    exact ⟨[], rfl⟩
  | succ m ih =>
    intro bytes hlen start rs h
    match bytes with
    | [] =>
      rw [rangesGo] at h
      cases h
      exact ⟨[], rfl⟩
    | [b0] => simp [rangesGo] at h
    | [b0, b1] => simp [rangesGo] at h
    | [b0, b1, b2] => simp [rangesGo] at h
    | b0 :: b1 :: b2 :: b3 :: rest =>
      rw [rangesGo] at h
      by_cases hc : start + fromLE4 b0 b1 b2 b3 ≤ u32Max
      · rw [if_pos hc] at h
        obtain ⟨rs2, hrs2, hcons⟩ := Option.map_eq_some'.mp h
        have hlen2 : rest.length ≤ m := by
          simp [List.length_cons] at hlen
          omega
        obtain ⟨L, hL⟩ := ih rest hlen2 (start + fromLE4 b0 b1 b2 b3) rs2 hrs2
        refine ⟨fromLE4 b0 b1 b2 b3 :: L, ?_⟩
        rw [← hcons, hL]
        rfl
      · rw [if_neg hc] at h
        cases h

theorem cumRanges_bounds : ∀ (L : List Nat) (start : Nat),
    ∀ r ∈ cumRanges start L, start ≤ r.1 ∧ r.1 ≤ r.2 ∧ r.2 ≤ start + L.sum := by
  intro L
  induction L with
  | nil => intro start r hr; exact absurd hr (List.not_mem_nil _)
  | cons s rest ih =>
    intro start r hr
    rw [show cumRanges start (s :: rest) =
        (start, start + s) :: cumRanges (start + s) rest from rfl] at hr
    rcases List.mem_cons.mp hr with rfl | hr2
    · refine ⟨Nat.le_refl _, by omega, ?_⟩
      have : (s :: rest).sum = s + rest.sum := rfl
      omega
    · obtain ⟨h1, h2, h3⟩ := ih (start + s) r hr2
      have : (s :: rest).sum = s + rest.sum := rfl
      exact ⟨by omega, h2, by omega⟩

theorem lookupRange_mem : ∀ (l : List (List Nat × (Nat × Nat))) (key : List Nat) (r : Nat × Nat),
    lookupRange l key = some r → ∃ nm, (nm, r) ∈ l := by
  intro l
  induction l with
  | nil => intro key r h; cases h
  | cons p rest ih =>
    intro key r h
    obtain ⟨nm0, r0⟩ := p
    rw [lookupRange] at h
    by_cases he : nm0 = key
    · rw [if_pos he] at h
      cases h
      exact ⟨nm0, List.mem_cons_self _ _⟩
    · rw [if_neg he] at h
      obtain ⟨nm, hmem⟩ := ih key r h
      exact ⟨nm, List.mem_cons_of_mem _ hmem⟩

/-! Characterisation of the checksum loop of the ordinal loader. -/

theorem checkAll_ok_iff (hash : List Nat → Checksum) (offsets data : List Nat)
    (b : Nat → List Nat) :
    ∀ (cs : List Checksum) (k : Nat),
    (∀ i, i < cs.length → enumLookup offsets data (k + i) = some (b (k + i))) →
    (checkAll hash offsets data k cs = Except.ok () ↔
      ∀ i (h : i < cs.length), hash (b (k + i)) = cs[i]) := by
  intro cs
  induction cs with
  | nil =>
    intro k _
    constructor
    · intro _ i h
      exact absurd h (Nat.not_lt_zero i)
    · intro _
      rfl
  | cons c rest ih =>
    intro k hlook
    have h0 : enumLookup offsets data k = some (b k) := by
      have := hlook 0 (by simp)
      rwa [Nat.add_zero] at this
    have hlook2 : ∀ i, i < rest.length →
        enumLookup offsets data (k + 1 + i) = some (b (k + 1 + i)) := by
      intro i hi
      have := hlook (i + 1) (by simp; omega)
      rwa [show k + (i + 1) = k + 1 + i by omega] at this
    by_cases hcs : hash (b k) = c
    · have hchk : check hash (b k) c = Except.ok () := by
        unfold check
        rw [if_neg (by simp [hcs])]
      simp only [checkAll, h0, hchk]
      rw [ih (k + 1) hlook2]
      constructor
      · intro hall i h
        match i with
        | 0 => rw [Nat.add_zero]; exact hcs
        | i + 1 =>
          have := hall i (by simp at h; omega)
          rwa [show k + 1 + i = k + (i + 1) by omega] at this
      · intro hall i h
        have := hall (i + 1) (by simp; omega)
        rwa [show k + (i + 1) = k + 1 + i by omega] at this
    · have hchk : check hash (b k) c =
          Except.error ⟨c, hash (b k)⟩ := by
        unfold check
        rw [if_pos (by simp [hcs])]
      simp only [checkAll, h0, hchk]
      constructor
      · intro hcontra
        cases hcontra
      · intro hall
        have := hall 0 (by simp)
        rw [Nat.add_zero] at this
        exact absurd this hcs

theorem checkAll_first_err (hash : List Nat → Checksum) (offsets data : List Nat)
    (b : Nat → List Nat) :
    ∀ (cs : List Checksum) (k : Nat),
    (∀ i, i < cs.length → enumLookup offsets data (k + i) = some (b (k + i))) →
    ∀ i (h : i < cs.length), hash (b (k + i)) ≠ cs[i] →
    (∀ j (hj : j < i), hash (b (k + j)) = cs[j]) →
    checkAll hash offsets data k cs =
      Except.error (EnumLoadErr.mismatch ⟨cs[i], hash (b (k + i))⟩) := by
  intro cs
  induction cs with
  | nil =>
    intro k _ i h
    exact absurd h (Nat.not_lt_zero i)
  | cons c rest ih =>
    intro k hlook i h hne hpre
    have h0 : enumLookup offsets data k = some (b k) := by
      have := hlook 0 (by simp)
      rwa [Nat.add_zero] at this
    have hlook2 : ∀ i2, i2 < rest.length →
        enumLookup offsets data (k + 1 + i2) = some (b (k + 1 + i2)) := by
      intro i2 hi2
      have := hlook (i2 + 1) (by simp; omega)
      rwa [show k + (i2 + 1) = k + 1 + i2 by omega] at this
    match i with
    | 0 =>
      rw [Nat.add_zero] at hne ⊢
      rw [List.getElem_cons_zero] at hne ⊢
      have hchk : check hash (b k) c = Except.error ⟨c, hash (b k)⟩ := by
        unfold check
        rw [if_pos (by simpa using hne)]
      simp only [checkAll, h0, hchk]
    | i + 1 =>
      have hc0 : hash (b k) = c := by
        have := hpre 0 (by omega)
        rwa [Nat.add_zero, List.getElem_cons_zero] at this
      have hchk : check hash (b k) c = Except.ok () := by
        unfold check
        rw [if_neg (by simp [hc0])]
      simp only [checkAll, h0, hchk]
      have hi : i < rest.length := by
        simp at h
        omega
      rw [List.getElem_cons_succ] at hne
      rw [show k + (i + 1) = k + 1 + i by omega] at hne
      have hpre2 : ∀ j (hj : j < i), hash (b (k + 1 + j)) = rest[j] := by
        intro j hj
        have := hpre (j + 1) (by omega)
        rw [List.getElem_cons_succ] at this
        rwa [show k + (j + 1) = k + 1 + j by omega] at this
      have hrest := ih (k + 1) hlook2 i hi hne hpre2
      rw [hrest, List.getElem_cons_succ, show k + (i + 1) = k + 1 + i by omega]

/-! Characterisation of the map and try_map loops. -/

theorem enumMapGo_spec {α : Type} (offsets data : List Nat) (f : List Nat → α)
    (b : Nat → List Nat) :
    ∀ is : List Nat, (∀ i ∈ is, enumLookup offsets data i = some (b i)) →
    enumMapGo offsets data f is = some (is.map fun i => f (b i)) := by
  intro is
  induction is with
  | nil => intro _; rfl
  | cons i rest ih =>
    intro hlook
    rw [enumMapGo, hlook i (List.mem_cons_self _ _),
      ih fun x hx => hlook x (List.mem_cons_of_mem _ hx)]
    rfl

theorem enumTryMapGo_ok {α ε : Type} (offsets data : List Nat) (f : List Nat → Except ε α)
    (b : Nat → List Nat) (t : Nat → α) :
    ∀ is : List Nat, (∀ i ∈ is, enumLookup offsets data i = some (b i)) →
    (∀ i ∈ is, f (b i) = Except.ok (t i)) →
    enumTryMapGo offsets data f is = some (Except.ok (is.map t)) := by
  intro is
  induction is with
  | nil => intro _ _; rfl
  | cons i rest ih =>
    intro hlook hok
    simp only [enumTryMapGo, hlook i (List.mem_cons_self _ _),
      hok i (List.mem_cons_self _ _),
      ih (fun x hx => hlook x (List.mem_cons_of_mem _ hx))
        (fun x hx => hok x (List.mem_cons_of_mem _ hx))]
    rfl

theorem enumTryMapGo_err {α ε : Type} (offsets data : List Nat) (f : List Nat → Except ε α)
    (b : Nat → List Nat) (e : ε) (j : Nat) :
    ∀ is1 is2 : List Nat,
    (∀ i ∈ is1 ++ j :: is2, enumLookup offsets data i = some (b i)) →
    (∀ i ∈ is1, ∃ t0, f (b i) = Except.ok t0) →
    f (b j) = Except.error e →
    enumTryMapGo offsets data f (is1 ++ j :: is2) = some (Except.error e) := by
  intro is1
  induction is1 with
  | nil =>
    intro is2 hlook _ herr
    rw [List.nil_append]
    simp only [enumTryMapGo, hlook j (List.mem_cons_self _ _), herr]
  | cons i rest ih =>
    intro is2 hlook hok herr
    obtain ⟨t0, ht0⟩ := hok i (List.mem_cons_self _ _)
    rw [List.cons_append]
    simp only [enumTryMapGo,
      hlook i (by rw [List.cons_append]; exact List.mem_cons_self _ _), ht0,
      ih is2 (fun x hx => hlook x (by rw [List.cons_append]; exact List.mem_cons_of_mem _ hx))
        (fun x hx => hok x (List.mem_cons_of_mem _ hx)) herr]

theorem range_split (n j : Nat) (h : j < n) :
    ∃ tail, List.range n = List.range j ++ j :: tail := by
  induction n with
  | zero => exact absurd h (Nat.not_lt_zero j)
  | succ m ih =>
    by_cases hj : j < m
    · obtain ⟨t, ht⟩ := ih hj
      refine ⟨t ++ [m], ?_⟩
      rw [List.range_succ, ht, List.append_assoc, List.cons_append]
    · have : j = m := by omega
      subst this
      exact ⟨[], List.range_succ j⟩

/-! Asymmetry of the strict lexicographic order on names. -/

theorem lexLt_asymm : ∀ x y : List Nat, lexLt x y = true → lexLt y x = true → False := by
  intro x
  induction x with
  | nil =>
    intro y hxy hyx
    cases y with
    | nil => simp [lexLt] at hxy
    | cons b bs => simp [lexLt] at hyx
  | cons a as0 ih =>
    intro y hxy hyx
    cases y with
    | nil => simp [lexLt] at hxy
    | cons b bs =>
      rw [lexLt] at hxy hyx
      by_cases hab : a < b
      · rw [if_neg (by omega), if_neg (by omega)] at hyx
        cases hyx
      · rw [if_neg hab] at hxy
        by_cases heq : a = b
        · rw [if_pos heq] at hxy
          rw [if_neg (by omega), if_pos heq.symm] at hyx
          exact ih bs hxy hyx
        · rw [if_neg heq] at hxy
          cases hxy

/-! Counting distinct short names: the base 257 numbering is injective on
byte lists and bounded on lists of length at most three, so a duplicate
free list of byte valid names contains at most 257 cubed short ones. -/

theorem encName_lt : ∀ l : List Nat, (∀ x ∈ l, x < 256) → encName l < 257 ^ l.length := by
  intro l
  induction l with
  | nil => intro _; simp [encName]
  | cons b rest ih =>
    intro hb
    have hrest := ih fun x hx => hb x (List.mem_cons_of_mem _ hx)
    have hbb : b < 256 := hb b (List.mem_cons_self _ _)
    rw [show encName (b :: rest) = encName rest * 257 + (b + 1) from rfl,
      List.length_cons, pow_succ]
    omega

theorem encName_inj : ∀ l1 l2 : List Nat, (∀ x ∈ l1, x < 256) → (∀ x ∈ l2, x < 256) →
    encName l1 = encName l2 → l1 = l2 := by
  intro l1
  induction l1 with
  | nil =>
    intro l2 _ h2 heq
    cases l2 with
    | nil => rfl
    | cons b bs =>
      rw [show encName ([] : List Nat) = 0 from rfl,
        show encName (b :: bs) = encName bs * 257 + (b + 1) from rfl] at heq
      omega
  | cons a as0 ih =>
    intro l2 h1 h2 heq
    cases l2 with
    | nil =>
      rw [show encName ([] : List Nat) = 0 from rfl,
        show encName (a :: as0) = encName as0 * 257 + (a + 1) from rfl] at heq
      omega
    | cons b bs =>
      rw [show encName (a :: as0) = encName as0 * 257 + (a + 1) from rfl,
        show encName (b :: bs) = encName bs * 257 + (b + 1) from rfl] at heq
      have ha : a < 256 := h1 a (List.mem_cons_self _ _)
      have hb : b < 256 := h2 b (List.mem_cons_self _ _)
      have hab : a = b ∧ encName as0 = encName bs := by omega
      rw [hab.1, ih bs (fun x hx => h1 x (List.mem_cons_of_mem _ hx))
        (fun x hx => h2 x (List.mem_cons_of_mem _ hx)) hab.2]

theorem shortNames_card {ns : List (List Nat)} (hnd : ns.Nodup)
    (hbyte : ∀ n ∈ ns, ∀ x ∈ n, x < 256) :
    (ns.filter fun n => n.length ≤ 3).length ≤ 16974593 := by
  set S := ns.filter fun n => n.length ≤ 3 with hS
  have hSnd : S.Nodup := hnd.filter _
  have hSmem : ∀ n ∈ S, n ∈ ns ∧ n.length ≤ 3 := by
    intro n hn
    have := List.mem_filter.mp hn
    exact ⟨this.1, by simpa using this.2⟩
  have hmapnd : (S.map encName).Nodup := by
    refine List.Nodup.map_on ?_ hSnd
    intro x hx y hy hxy
    exact encName_inj x y (hbyte x (hSmem x hx).1) (hbyte y (hSmem y hy).1) hxy
  have hsub : (S.map encName).toFinset ⊆ Finset.range 16974593 := by
    intro v hv
    obtain ⟨n, hn, rfl⟩ := List.mem_map.mp (List.mem_toFinset.mp hv)
    rw [Finset.mem_range]
    have hlt := encName_lt n (hbyte n (hSmem n hn).1)
    have hpow : 257 ^ n.length ≤ 257 ^ 3 :=
      Nat.pow_le_pow_right (by omega) (hSmem n hn).2
    calc encName n < 257 ^ n.length := hlt
      _ ≤ 257 ^ 3 := hpow
      _ = 16974593 := by norm_num
  have hcard : (S.map encName).toFinset.card = S.length := by
    rw [List.toFinset_card_of_nodup hmapnd, List.length_map]
  calc S.length = (S.map encName).toFinset.card := hcard.symm
    _ ≤ (Finset.range 16974593).card := Finset.card_le_card hsub
    _ = 16974593 := Finset.card_range _

theorem sum_lengths_filter : ∀ ns : List (List Nat),
    4 * ns.length ≤ (ns.map List.length).sum +
      4 * (ns.filter fun n => n.length ≤ 3).length := by
  intro ns
  induction ns with
  | nil => simp
  | cons n rest ih =>
    by_cases hn : n.length ≤ 3
    · rw [List.filter_cons_of_pos (by simpa using hn)]
      simp only [List.length_cons, List.map_cons, List.sum_cons]
      omega
    · rw [List.filter_cons_of_neg (by simpa using hn)]
      simp only [List.length_cons, List.map_cons, List.sum_cons]
      omega

theorem names_count_bound {ns : List (List Nat)} (hnd : ns.Nodup)
    (hbyte : ∀ n ∈ ns, ∀ x ∈ n, x < 256)
    (hjoin : (joinWithZero ns).length ≤ u32Max) :
    4 * ns.length ≤ u32Max := by
  by_cases hne : ns = []
  · subst hne
    simp [u32Max]
  · have hlen := joinWithZero_length hne
    have hshort := shortNames_card hnd hbyte
    have hsum := sum_lengths_filter ns
    unfold u32Max at *
    omega

/-! Lawfulness of the Uncompressed codec. -/

theorem uncompressedCodec_lawful : uncompressedCodec.Lawful := by
  constructor
  · intro d comp h
    cases h
    simp [uncompressedCodec]
  · intro src len out h
    simp only [uncompressedCodec] at h
    by_cases hl : src.length = len
    · rw [if_pos hl] at h
      cases h
      exact hl
    · rw [if_neg hl] at h
      cases h

/-! Inversion of a successful build: every intermediate value of
prepare_named_archive is determined by the asset list. -/

theorem prepare_inv {hash : List Nat → Checksum} {c : Codec}
    {assets : List (List Nat × List Nat)} {pkg : NamedArchivePkg}
    (h : prepare_named_archive hash c assets = some pkg) :
    (assets.map Prod.fst).Nodup ∧
    (∀ nm ∈ assets.map Prod.fst, ∀ byte ∈ nm, byte ≠ 0) ∧
    (joinWithZero (assets.map Prod.fst)).length ≤ u32Max ∧
    c.compress (joinWithZero (assets.map Prod.fst)) = some pkg.compressedNames ∧
    pkg.uncompressedNamesSize = (joinWithZero (assets.map Prod.fst)).length ∧
    (∀ s ∈ assets.map (fun a => a.2.length), s ≤ u32Max) ∧
    4 * assets.length ≤ u32Max ∧
    c.compress (listJoin ((assets.map (fun a => a.2.length)).map toLE4)) =
      some pkg.compressedSizes ∧
    c.compress (listJoin (assets.map Prod.snd)) = some pkg.compressedData ∧
    pkg.uncompressedDataSize = (listJoin (assets.map Prod.snd)).length ∧
    (listJoin (assets.map Prod.snd)).length ≤ u32Max ∧
    pkg.checksums = assets.map (fun a => hash a.2) := by
  unfold prepare_named_archive at h
  by_cases hnd : (assets.map Prod.fst).Nodup
  case neg => rw [if_neg hnd] at h; cases h
  rw [if_pos hnd] at h
  cases hcn : compress_names c (assets.map Prod.fst) with
  | none => rw [hcn] at h; cases h
  | some pair =>
    obtain ⟨compNames, namesSize⟩ := pair
    cases hcs : compress_sizes c (assets.map fun a => a.2.length) with
    | none => rw [hcn, hcs] at h; cases h
    | some compSizes =>
      cases hcd : c.compress (listJoin (assets.map Prod.snd)) with
      | none => rw [hcn, hcs, hcd] at h; cases h
      | some compData =>
        simp only [hcn, hcs, hcd] at h
        by_cases hdl : (listJoin (assets.map Prod.snd)).length ≤ u32Max
        case neg => rw [if_neg hdl] at h; cases h
        rw [if_pos hdl] at h
        cases h
        unfold compress_names at hcn
        by_cases hnull : (assets.map Prod.fst).all fun n => n.all fun b => b != 0
        case neg => rw [if_neg hnull] at hcn; cases hcn
        rw [if_pos hnull] at hcn
        by_cases hjl : (joinWithZero (assets.map Prod.fst)).length ≤ u32Max
        case neg => rw [if_neg hjl] at hcn; cases hcn
        rw [if_pos hjl] at hcn
        obtain ⟨compN, hcompN, hpair⟩ := Option.map_eq_some'.mp hcn
        obtain ⟨hc1, hc2⟩ := Prod.mk.injEq .. ▸ hpair
        unfold compress_sizes at hcs
        cases hsv : sizesVecOf (assets.map fun a => a.2.length) with
        | none => rw [hsv] at hcs; cases hcs
        | some vec =>
          simp only [hsv] at hcs
          obtain ⟨hsb, hveq⟩ := sizesVecOf_eq_some hsv
          by_cases hvl : vec.length ≤ u32Max
          case neg => rw [if_neg hvl] at hcs; cases hcs
          rw [if_pos hvl] at hcs
          have hveclen : vec.length = 4 * assets.length := by
            rw [hveq, listJoin_toLE4_length, List.length_map]
          refine ⟨hnd, ?_, hjl, ?_, ?_, hsb, ?_, ?_, ?_, ?_, hdl, ?_⟩
          · intro nm hnm byte hbyte
            have h1 := (List.all_eq_true.mp hnull) nm hnm
            have h2 := (List.all_eq_true.mp h1) byte hbyte
            simpa using h2
          · show c.compress (joinWithZero (assets.map Prod.fst)) = some compNames
            rw [hcompN, hc1]
          · show namesSize = (joinWithZero (assets.map Prod.fst)).length
            rw [hc2]
          · omega
          · show c.compress (listJoin ((assets.map fun a => a.2.length).map toLE4)) =
              some compSizes
            rw [← hveq]
            exact hcs
          · rfl
          · show (listJoin (assets.map Prod.snd)).length =
              (listJoin (assets.map Prod.snd)).length
            rfl
          · show assets.map (fun a => hash a.2) = assets.map (fun a => hash a.2)
            rfl

/-! Construction of a successful build from the three u32 limits. -/

theorem prepare_some {hash : List Nat → Checksum} {c : Codec}
    {assets : List (List Nat × List Nat)}
    (hc : ∀ d, ∃ out, c.compress d = some out)
    (hnd : (assets.map Prod.fst).Nodup)
    (hnull : ∀ nm ∈ assets.map Prod.fst, ∀ byte ∈ nm, byte ≠ 0)
    (hdata : (listJoin (assets.map Prod.snd)).length ≤ u32Max)
    (hnames : (joinWithZero (assets.map Prod.fst)).length ≤ u32Max)
    (hcount : 4 * assets.length ≤ u32Max) :
    ∃ pkg, prepare_named_archive hash c assets = some pkg := by
  obtain ⟨compN, hcompN⟩ := hc (joinWithZero (assets.map Prod.fst))
  obtain ⟨compS, hcompS⟩ := hc (listJoin ((assets.map fun a => a.2.length).map toLE4))
  obtain ⟨compD, hcompD⟩ := hc (listJoin (assets.map Prod.snd))
  have hnullb : ((assets.map Prod.fst).all fun n => n.all fun b => b != 0) = true := by
    rw [List.all_eq_true]
    intro n hn
    rw [List.all_eq_true]
    intro b hb
    simpa using hnull n hn b hb
  have hmm : (assets.map fun a => a.2.length) = (assets.map Prod.snd).map List.length := by
    rw [List.map_map]
    rfl
  have hsum : (assets.map fun a => a.2.length).sum ≤ u32Max := by
    rw [hmm, ← listJoin_length]
    exact hdata
  have hbnd : ∀ s ∈ assets.map fun a => a.2.length, s ≤ u32Max := by
    intro s hs
    exact le_trans (List.single_le_sum (fun x _ => Nat.zero_le x) s hs) hsum
  have hsv := sizesVecOf_of_bounded hbnd
  have hcn : compress_names c (assets.map Prod.fst) =
      some (compN, (joinWithZero (assets.map Prod.fst)).length) := by
    unfold compress_names
    rw [if_pos hnullb, if_pos hnames, hcompN]
    rfl
  have hlen4 : (listJoin ((assets.map fun a => a.2.length).map toLE4)).length ≤ u32Max := by
    rw [listJoin_toLE4_length, List.length_map]
    omega
  have hcs : compress_sizes c (assets.map fun a => a.2.length) = some compS := by
    unfold compress_sizes
    simp only [hsv]
    rw [if_pos hlen4, hcompS]
  refine ⟨{ compressedData := compD
            uncompressedDataSize := (listJoin (assets.map Prod.snd)).length
            compressedNames := compN
            uncompressedNamesSize := (joinWithZero (assets.map Prod.fst)).length
            compressedSizes := compS
            checksums := assets.map fun a => hash a.2 }, ?_⟩
  unfold prepare_named_archive
  rw [if_pos hnd]
  simp only [hcn, hcs, hcompD]
  rw [if_pos hdata]

/-- C10: loading a named package built from an empty manifest fails with a
panic: the zero length names stream splits into one empty name while the
zero checksums give zero ranges, so the count assertion of
NamedArchive.load fires.  Stated for every lawful codec and every digest
function. -/
theorem empty_manifest_load_fails (hash : List Nat → Checksum) (c : Codec) (hc : c.Lawful)
    (pkg : NamedArchivePkg)
    (hprep : prepare_named_archive hash c ([] : List (List Nat × List Nat)) = some pkg) :
    NamedArchive.load c pkg = none := by
  obtain ⟨_, _, _, hcompN, hnsize, _, _, hcompS, hcompD, hdsize, _, hcks⟩ := prepare_inv hprep
  simp only [List.map_nil] at hcompN hnsize hcompS hcompD hdsize hcks
  have h1 : c.decompressChecked pkg.compressedData pkg.uncompressedDataSize = some [] := by
    have := hc.roundtrip _ _ hcompD
    rw [hdsize]
    exact this
  have h2 : c.decompressChecked pkg.compressedNames pkg.uncompressedNamesSize = some [] := by
    have := hc.roundtrip _ _ hcompN
    rw [hnsize]
    exact this
  have h3 : c.decompressChecked pkg.compressedSizes (pkg.checksums.length * 4) = some [] := by
    have := hc.roundtrip _ _ hcompS
    rw [hcks]
    exact this
  have hn : decompress_names c pkg.compressedNames pkg.uncompressedNamesSize = some [[]] := by
    unfold decompress_names
    rw [h2]
    rfl
  have hr : decompress_ranges c pkg.compressedSizes pkg.checksums.length = some [] := by
    unfold decompress_ranges
    rw [if_pos (by rw [hcks]; simp [usizeMax]), h3]
    rfl
  unfold NamedArchive.load
  simp only [h1, hn, hr]
  rw [if_neg (by simp)]

/-- C2, counterexample: prepare_named_archive does not sort its input, so
presenting the same two assets in the two possible orders produces
different packages (already the data streams differ under the
Uncompressed codec). -/
theorem builder_input_order_cex :
    prepare_named_archive lengthChecksum uncompressedCodec [([97], [0]), ([98], [1])] ≠
      prepare_named_archive lengthChecksum uncompressedCodec [([98], [1]), ([97], [0])] := by
  decide

/-- C2, amended: the Builder itself preserves input order and does not
sort; sorting by name happens in the directory reader before the Builder
runs.  Determinism therefore holds for inputs presented in the canonical
sorted order: any two name sorted presentations of the same asset set are
the same list, so they build byte identical packages. -/
theorem builder_sorted_deterministic (hash : List Nat → Checksum) (c : Codec)
    (assets1 assets2 : List (List Nat × List Nat))
    (hperm : assets1.Perm assets2)
    (hs1 : assets1.Pairwise fun a b => lexLt a.1 b.1 = true)
    (hs2 : assets2.Pairwise fun a b => lexLt a.1 b.1 = true) :
    prepare_named_archive hash c assets1 = prepare_named_archive hash c assets2 := by
  have heq : assets1 = assets2 := by
    haveI : IsAntisymm (List Nat × List Nat) (fun a b => lexLt a.1 b.1 = true) :=
      ⟨fun a b h1 h2 => (lexLt_asymm _ _ h1 h2).elim⟩
    exact List.eq_of_perm_of_sorted hperm hs1 hs2
  rw [heq]

/-- Witness for the amended C2 theorem at a concrete sorted asset list. -/
theorem builder_sorted_deterministic_witness :
    prepare_named_archive lengthChecksum uncompressedCodec [([97], [0]), ([98], [1])] =
      prepare_named_archive lengthChecksum uncompressedCodec [([97], [0]), ([98], [1])] :=
  builder_sorted_deterministic lengthChecksum uncompressedCodec _ _
    (List.Perm.refl _) (by decide) (by decide)

/-- C5, counterexample: the cumulative sum check of decompress_ranges
fails fatally on overflow, so the length sequence 4294967295, 1 does not
yield two ranges as the unconditional claim requires; the loader panics
(none) instead. -/
theorem range_codec_overflow_cex :
    decompress_ranges uncompressedCodec (listJoin ([4294967295, 1].map toLE4)) 2 = none := by
  decide

/-- C5, amended: for every lawful codec and every length sequence whose
cumulative sums stay within u32Max, decompress_ranges rebuilds exactly the
cumulative ranges (start 0, each end extending the previous one), one per
length; a cumulative overflow is instead a fatal error. -/
theorem range_codec_correct (c : Codec) (hc : c.Lawful) (L : List Nat) (comp : List Nat)
    (hcomp : c.compress (listJoin (L.map toLE4)) = some comp)
    (hsum : L.sum ≤ u32Max) (hcnt : L.length * 4 ≤ usizeMax) :
    decompress_ranges c comp L.length = some (cumRanges 0 L) ∧
    (cumRanges 0 L).length = L.length := by
  have hlen := listJoin_toLE4_length L
  have hdec := hc.roundtrip _ _ hcomp
  rw [hlen] at hdec
  constructor
  · unfold decompress_ranges
    rw [if_pos hcnt, show L.length * 4 = 4 * L.length by omega, hdec]
    exact rangesGo_encode L 0 (by omega)
  · exact cumRanges_length 0 L

/-- Witness for the amended C5 theorem: lengths 5, 0, 3 give the ranges
0 to 5, 5 to 5, 5 to 8, and the empty sequence gives no ranges. -/
theorem range_codec_correct_witness :
    decompress_ranges uncompressedCodec (listJoin ([5, 0, 3].map toLE4)) 3 =
      some [(0, 5), (5, 5), (5, 8)] ∧
    decompress_ranges uncompressedCodec [] 0 = some [] := by
  constructor
  · exact ((range_codec_correct uncompressedCodec uncompressedCodec_lawful [5, 0, 3] _
      rfl (by decide) (by decide)).1).trans (by decide)
  · exact ((range_codec_correct uncompressedCodec uncompressedCodec_lawful [] _
      rfl (by decide) (by decide)).1).trans (by decide)

/-- C6: the Named loader never reads the checksum bytes: replacing the
checksum entries of a package by any other entries of the same count
leaves the result of NamedArchive.load unchanged, so it succeeds or fails
identically with identical data buffer and table. -/
theorem named_load_checksum_independent (c : Codec) (pkg : NamedArchivePkg)
    (cs2 : List Checksum) (hlen : cs2.length = pkg.checksums.length) :
    NamedArchive.load c { pkg with checksums := cs2 } = NamedArchive.load c pkg := by
  cases pkg with
  | mk a bsz cn ns cs ck =>
    simp only at hlen
    show NamedArchive.load c ⟨a, bsz, cn, ns, cs, cs2⟩ = _
    unfold NamedArchive.load
    simp only
    rw [hlen]

/-- Witness for C6 at a concrete package and altered checksum bytes. -/
theorem named_load_checksum_independent_witness :
    NamedArchive.load uncompressedCodec ⟨[], 0, [97], 1, [0, 0, 0, 0], [[9]]⟩ =
      NamedArchive.load uncompressedCodec ⟨[], 0, [97], 1, [0, 0, 0, 0], [[0]]⟩ :=
  named_load_checksum_independent uncompressedCodec ⟨[], 0, [97], 1, [0, 0, 0, 0], [[0]]⟩
    [[9]] (by decide)

/-- C4: with the three streams decompressed, NamedArchive.load returns the
zipped name to range table exactly when the name count equals the range
count and the end of the final range (0 when there is none) equals the
declared uncompressed data size, and panics (none) exactly when one of the
two assertions fails. -/
theorem named_load_consistency (c : Codec) (pkg : NamedArchivePkg)
    (data : List Nat) (names : List (List Nat)) (ranges : List (Nat × Nat))
    (hd : c.decompressChecked pkg.compressedData pkg.uncompressedDataSize = some data)
    (hn : decompress_names c pkg.compressedNames pkg.uncompressedNamesSize = some names)
    (hr : decompress_ranges c pkg.compressedSizes pkg.checksums.length = some ranges) :
    (NamedArchive.load c pkg = some ⟨data, names.zip ranges⟩ ↔
      (names.length = ranges.length ∧
        ((ranges.getLast?).map Prod.snd).getD 0 = pkg.uncompressedDataSize)) ∧
    (NamedArchive.load c pkg = none ↔
      ¬(names.length = ranges.length ∧
        ((ranges.getLast?).map Prod.snd).getD 0 = pkg.uncompressedDataSize)) := by
  unfold NamedArchive.load
  simp only [hd, hn, hr]
  by_cases h1 : names.length = ranges.length
  · rw [if_pos h1]
    by_cases h2 : ((ranges.getLast?).map Prod.snd).getD 0 = pkg.uncompressedDataSize
    · rw [if_pos h2]
      refine ⟨⟨fun _ => ⟨h1, h2⟩, fun _ => rfl⟩, ?_, ?_⟩
      · intro hcontra
        cases hcontra
      · intro hcontra
        exact absurd ⟨h1, h2⟩ hcontra
    · rw [if_neg h2]
      refine ⟨⟨?_, ?_⟩, fun _ => fun hc => h2 hc.2, fun _ => rfl⟩
      · intro hcontra
        cases hcontra
      · intro hc
        exact absurd hc.2 h2
  · rw [if_neg h1]
    refine ⟨⟨?_, ?_⟩, fun _ => fun hc => h1 hc.1, fun _ => rfl⟩
    · intro hcontra
      cases hcontra
    · intro hc
      exact absurd hc.1 h1

/-- Witness for C4 at a concrete consistent package. -/
theorem named_load_consistency_witness :
    NamedArchive.load uncompressedCodec ⟨[], 0, [97], 1, [0, 0, 0, 0], [[0]]⟩ =
      some ⟨[], [([97], (0, 0))]⟩ :=
  (named_load_consistency uncompressedCodec ⟨[], 0, [97], 1, [0, 0, 0, 0], [[0]]⟩
    [] [[97]] [(0, 0)] (by decide) (by decide) (by decide)).1.mpr ⟨by decide, by decide⟩

/-- C3: AssetEnum load verifies the checksum of every ordinal slice
against the recorded constant, returns the decompressed data exactly when
all of them match, and fails fatally on the first mismatch with an error
carrying the expected digest and the actual digest. -/
theorem enum_load_checksums (hash : List Nat → Checksum) (E : AssetEnumSpec)
    (data : List Nat) (b : Nat → List Nat)
    (hdec : E.codec.decompressChecked E.data ((E.dataEndOffsets.getLast?).getD 0) = some data)
    (hlook : ∀ i, i < E.checksums.length → enumLookup E.dataEndOffsets data i = some (b i)) :
    (enumLoad hash E = Except.ok data ↔
      ∀ i (h : i < E.checksums.length), hash (b i) = E.checksums[i]) ∧
    (∀ i (h : i < E.checksums.length), hash (b i) ≠ E.checksums[i] →
      (∀ j (hj : j < i), hash (b j) = E.checksums[j]) →
      enumLoad hash E = Except.error (EnumLoadErr.mismatch ⟨E.checksums[i], hash (b i)⟩)) := by
  have hlook0 : ∀ i, i < E.checksums.length →
      enumLookup E.dataEndOffsets data (0 + i) = some (b (0 + i)) := by
    intro i hi
    rw [Nat.zero_add]
    exact hlook i hi
  constructor
  · rw [show enumLoad hash E = (match checkAll hash E.dataEndOffsets data 0 E.checksums with
      | Except.error e => Except.error e
      | Except.ok _ => Except.ok data) from by unfold enumLoad; rw [hdec]]
    cases hca : checkAll hash E.dataEndOffsets data 0 E.checksums with
    | error e =>
      constructor
      · intro hcontra
        cases hcontra
      · intro hall
        have := (checkAll_ok_iff hash E.dataEndOffsets data b E.checksums 0 hlook0).mpr
          (by intro i hi; rw [Nat.zero_add]; exact hall i hi)
        rw [hca] at this
        cases this
    | ok u =>
      cases u
      refine ⟨fun _ => ?_, fun _ => rfl⟩
      intro i hi
      have := (checkAll_ok_iff hash E.dataEndOffsets data b E.checksums 0 hlook0).mp hca i hi
      rwa [Nat.zero_add] at this
  · intro i h hne hpre
    have herr := checkAll_first_err hash E.dataEndOffsets data b E.checksums 0 hlook0 i h
      (by rwa [Nat.zero_add]) (by intro j hj; rw [Nat.zero_add]; exact hpre j hj)
    rw [Nat.zero_add] at herr
    unfold enumLoad
    simp only [hdec, herr]

/-- Witness for C3: a one asset archive with a matching checksum loads
successfully. -/
theorem enum_load_checksums_witness :
    enumLoad lengthChecksum ⟨[7], [1], [[1]], uncompressedCodec⟩ = Except.ok [7] :=
  (enum_load_checksums lengthChecksum ⟨[7], [1], [[1]], uncompressedCodec⟩ [7]
    (fun _ => [7]) (by decide)
    (by
      intro i hi
      simp only [List.length_cons, List.length_nil] at hi
      interval_cases i
      decide)).1.mpr
    (by
      intro i hi
      simp only [List.length_cons, List.length_nil] at hi
      interval_cases i
      rfl)

/-- C8: on a loaded ordinal archive, map produces the table of f applied
to every ordinal slice in ordinal order; try_map returns the full table of
ok values when the transform succeeds everywhere and propagates the first
error, producing no table, when it fails. -/
theorem enum_map_try_map {α ε : Type} (E : AssetEnumSpec) (data : List Nat)
    (b : Nat → List Nat)
    (hlook : ∀ i, i < E.checksums.length → enumLookup E.dataEndOffsets data i = some (b i))
    (f : List Nat → α) (g : List Nat → Except ε α) (t : Nat → α) :
    (∃ l, enumMap E data f = some l ∧ l.length = E.checksums.length ∧
      ∀ i (h : i < l.length), l[i] = f (b i)) ∧
    ((∀ i, i < E.checksums.length → g (b i) = Except.ok (t i)) →
      enumTryMap E data g = some (Except.ok ((List.range E.checksums.length).map t))) ∧
    (∀ j e, j < E.checksums.length → g (b j) = Except.error e →
      (∀ i, i < j → ∃ t0, g (b i) = Except.ok t0) →
      enumTryMap E data g = some (Except.error e)) := by
  have hlookm : ∀ i ∈ List.range E.checksums.length,
      enumLookup E.dataEndOffsets data i = some (b i) := by
    intro i hi
    exact hlook i (List.mem_range.mp hi)
  refine ⟨?_, ?_, ?_⟩
  · refine ⟨(List.range E.checksums.length).map fun i => f (b i), ?_, by simp, ?_⟩
    · exact enumMapGo_spec E.dataEndOffsets data f b _ hlookm
    · intro i h
      rw [List.length_map, List.length_range] at h
      simp [List.getElem_map, List.getElem_range]
  · intro hok
    exact enumTryMapGo_ok E.dataEndOffsets data g b t _ hlookm
      (fun i hi => hok i (List.mem_range.mp hi))
  · intro j e hj herr hpre
    obtain ⟨tail, htail⟩ := range_split E.checksums.length j hj
    unfold enumTryMap
    rw [htail]
    refine enumTryMapGo_err E.dataEndOffsets data g b e j (List.range j) tail ?_ ?_ herr
    · intro i hi
      rw [← htail] at hi
      exact hlookm i hi
    · intro i hi
      exact hpre i (List.mem_range.mp hi)

/-- Witness for C8: a one asset archive mapped by the length function and
fallibly mapped by an always succeeding function. -/
theorem enum_map_try_map_witness :
    enumMap ⟨[7], [1], [[1]], uncompressedCodec⟩ [7] List.length = some [1] ∧
    enumTryMap ⟨[7], [1], [[1]], uncompressedCodec⟩ [7]
      (fun d => (Except.ok d.length : Except Unit Nat)) = some (Except.ok [1]) := by
  have h := enum_map_try_map ⟨[7], [1], [[1]], uncompressedCodec⟩ [7] (fun _ => [7])
    (by
      intro i hi
      simp only [List.length_cons, List.length_nil] at hi
      interval_cases i
      decide)
    List.length (fun d => (Except.ok d.length : Except Unit Nat)) (fun _ => 1)
  constructor
  · obtain ⟨l, hl, hlen, hent⟩ := h.1
    rw [hl]
    have : l = [1] := by
      have h0 := hent 0 (by rw [hlen]; decide)
      cases l with
      | nil => simp at hlen
      | cons x xs =>
        cases xs with
        | nil => simp at h0; rw [h0]
        | cons y ys => simp at hlen
    rw [this]
  · exact (h.2.1 (by
      intro i hi
      simp only [List.length_cons, List.length_nil] at hi
      interval_cases i
      rfl)).trans rfl

/-- C7: on every successfully loaded named archive, get returns the bytes
of a present name and none (as in the Rust value None) for an absent one;
contains answers true exactly when get finds bytes; and the indexing
accessor yields the bytes of a present name and panics for an absent
one. -/
theorem named_lookup_semantics (c : Codec) (hc : c.Lawful) (pkg : NamedArchivePkg)
    (arch : NamedArchive) (hload : NamedArchive.load c pkg = some arch) (nm : List Nat) :
    (∀ r, lookupRange arch.ranges nm = some r →
      ∃ bytes, arch.get nm = some (some bytes) ∧ arch.indexGet nm = some bytes ∧
        arch.containsName nm = some true) ∧
    (lookupRange arch.ranges nm = none →
      arch.get nm = some none ∧ arch.indexGet nm = none ∧
        arch.containsName nm = some false) ∧
    (arch.containsName nm = some true ↔ ∃ bytes, arch.get nm = some (some bytes)) := by
  unfold NamedArchive.load at hload
  cases hdd : c.decompressChecked pkg.compressedData pkg.uncompressedDataSize with
  | none => rw [hdd] at hload; cases hload
  | some data =>
  cases hdn : decompress_names c pkg.compressedNames pkg.uncompressedNamesSize with
  | none => simp only [hdd, hdn] at hload; cases hload
  | some names =>
  cases hdr : decompress_ranges c pkg.compressedSizes pkg.checksums.length with
  | none => simp only [hdd, hdn, hdr] at hload; cases hload
  | some ranges =>
  simp only [hdd, hdn, hdr] at hload
  by_cases h1 : names.length = ranges.length
  case neg => rw [if_neg h1] at hload; cases hload
  rw [if_pos h1] at hload
  by_cases h2 : ((ranges.getLast?).map Prod.snd).getD 0 = pkg.uncompressedDataSize
  case neg => rw [if_neg h2] at hload; cases hload
  rw [if_pos h2] at hload
  cases hload
  have hdatalen : data.length = pkg.uncompressedDataSize := hc.decompressLen _ _ _ hdd
  -- the produced ranges are cumulative, hence ordered and bounded
  unfold decompress_ranges at hdr
  by_cases hmul : pkg.checksums.length * 4 ≤ usizeMax
  case neg => rw [if_neg hmul] at hdr; cases hdr
  rw [if_pos hmul] at hdr
  cases hdb : c.decompressChecked pkg.compressedSizes (pkg.checksums.length * 4) with
  | none => rw [hdb] at hdr; cases hdr
  | some bytes =>
  rw [hdb] at hdr
  obtain ⟨L, hL⟩ := rangesGo_to_cum bytes.length bytes (Nat.le_refl _) 0 ranges hdr
  have hbound : ∀ r ∈ ranges, r.1 ≤ r.2 ∧ r.2 ≤ data.length := by
    intro r hr
    have hne : L ≠ [] := by
      intro hcontra
      rw [hcontra] at hL
      rw [hL] at hr
      exact absurd hr (List.not_mem_nil r)
    have hlast := cumRanges_lastEnd L hne 0
    rw [← hL] at hlast
    rw [hlast] at h2
    simp only [Option.getD_some] at h2
    obtain ⟨_, hb2, hb3⟩ := cumRanges_bounds L 0 r (hL ▸ hr)
    rw [Nat.zero_add] at hb3
    exact ⟨hb2, by omega⟩
  have hget : ∀ r, lookupRange (names.zip ranges) nm = some r →
      NamedArchive.get ⟨data, names.zip ranges⟩ nm =
        some (some ((data.drop r.1).take (r.2 - r.1))) := by
    intro r hlk
    obtain ⟨nm2, hmem⟩ := lookupRange_mem _ _ _ hlk
    have hrmem : r ∈ ranges := (List.of_mem_zip hmem).2
    obtain ⟨hb1, hb2⟩ := hbound r hrmem
    unfold NamedArchive.get
    simp only
    rw [hlk]
    show (sliceChecked data r.1 r.2).map some =
      some (some ((data.drop r.1).take (r.2 - r.1)))
    unfold sliceChecked
    rw [if_pos ⟨hb1, hb2⟩]
    rfl
  refine ⟨?_, ?_, ?_⟩
  · intro r hlk
    simp only at hlk
    refine ⟨(data.drop r.1).take (r.2 - r.1), hget r hlk, ?_, ?_⟩
    · unfold NamedArchive.indexGet
      rw [hget r hlk]
    · unfold NamedArchive.containsName
      rw [hget r hlk]
      rfl
  · intro hlk
    simp only at hlk
    have hg : NamedArchive.get ⟨data, names.zip ranges⟩ nm = some none := by
      unfold NamedArchive.get
      simp only
      rw [hlk]
    refine ⟨hg, ?_, ?_⟩
    · unfold NamedArchive.indexGet
      rw [hg]
    · unfold NamedArchive.containsName
      rw [hg]
      rfl
  · cases hlk : lookupRange (names.zip ranges) nm with
    | none =>
      have hg : NamedArchive.get ⟨data, names.zip ranges⟩ nm = some none := by
        unfold NamedArchive.get
        simp only
        rw [hlk]
      constructor
      · intro hcontra
        unfold NamedArchive.containsName at hcontra
        rw [hg] at hcontra
        cases hcontra
      · intro ⟨bytes, hb⟩
        rw [hg] at hb
        cases hb
    | some r =>
      constructor
      · intro _
        exact ⟨(data.drop r.1).take (r.2 - r.1), hget r hlk⟩
      · intro _
        unfold NamedArchive.containsName
        rw [hget r hlk]
        rfl

/-- Witness for C7 at a loaded one asset archive and its present name. -/
theorem named_lookup_semantics_witness :
    ∃ bytes, NamedArchive.get ⟨[], [([97], (0, 0))]⟩ [97] = some (some bytes) ∧
      NamedArchive.indexGet ⟨[], [([97], (0, 0))]⟩ [97] = some bytes ∧
      NamedArchive.containsName ⟨[], [([97], (0, 0))]⟩ [97] = some true :=
  (named_lookup_semantics uncompressedCodec uncompressedCodec_lawful
    ⟨[], 0, [97], 1, [0, 0, 0, 0], [[0]]⟩ ⟨[], [([97], (0, 0))]⟩ (by decide) [97]).1
    (0, 0) (by decide)

/-- C1: round trip.  For every lawful codec and every asset list with
unique, null free, UTF-8 valid names that prepare_named_archive accepts,
NamedArchive.load succeeds on the built package and get returns every
asset's original bytes; in particular a single zero length asset round
trips to an empty slice (see the witness). -/
theorem named_roundtrip (hash : List Nat → Checksum) (c : Codec) (hc : c.Lawful)
    (assets : List (List Nat × List Nat)) (pkg : NamedArchivePkg)
    (hutf : ∀ nm ∈ assets.map Prod.fst, utf8Valid nm = true)
    (hprep : prepare_named_archive hash c assets = some pkg)
    (nm bl : List Nat) (hmem : (nm, bl) ∈ assets) :
    ∃ arch, NamedArchive.load c pkg = some arch ∧ arch.get nm = some (some bl) := by
  obtain ⟨hnd, hnull, hjl, hcompN, hnsize, hsb, hcount, hcompS, hcompD, hdsize, hdl, hcks⟩ :=
    prepare_inv hprep
  have hne : assets ≠ [] := by
    intro h
    subst h
    exact absurd hmem (List.not_mem_nil _)
  have hnamesne : assets.map Prod.fst ≠ [] := by
    simpa using hne
  have hmm2 : (assets.map fun a => a.2.length) = (assets.map Prod.snd).map List.length := by
    rw [List.map_map]
    rfl
  have h1 : c.decompressChecked pkg.compressedData pkg.uncompressedDataSize =
      some (listJoin (assets.map Prod.snd)) := by
    rw [hdsize]
    exact hc.roundtrip _ _ hcompD
  have h2 : decompress_names c pkg.compressedNames pkg.uncompressedNamesSize =
      some (assets.map Prod.fst) := by
    unfold decompress_names
    rw [hnsize]
    simp only [hc.roundtrip _ _ hcompN]
    rw [splitOnZero_join hnamesne hnull, if_pos (List.all_eq_true.mpr hutf)]
  have h3 : decompress_ranges c pkg.compressedSizes pkg.checksums.length =
      some (cumRanges 0 (assets.map fun a => a.2.length)) := by
    unfold decompress_ranges
    have hckslen : pkg.checksums.length = assets.length := by
      rw [hcks, List.length_map]
    have hveclen : (listJoin ((assets.map fun a => a.2.length).map toLE4)).length =
        4 * assets.length := by
      rw [listJoin_toLE4_length, List.length_map]
    rw [hckslen, if_pos (by unfold u32Max usizeMax at *; omega)]
    have hrt := hc.roundtrip _ _ hcompS
    rw [hveclen] at hrt
    rw [show assets.length * 4 = 4 * assets.length by omega, hrt]
    apply rangesGo_encode
    rw [Nat.zero_add, hmm2, ← listJoin_length]
    exact hdl
  have hlastEnd : (((cumRanges 0 (assets.map fun a => a.2.length)).getLast?).map
      Prod.snd).getD 0 = pkg.uncompressedDataSize := by
    have hLne : (assets.map fun a => a.2.length) ≠ [] := by
      simpa using hne
    rw [cumRanges_lastEnd _ hLne 0]
    simp only [Option.getD_some]
    rw [Nat.zero_add, hmm2, ← listJoin_length, hdsize]
  have hload : NamedArchive.load c pkg = some ⟨listJoin (assets.map Prod.snd),
      (assets.map Prod.fst).zip (cumRanges 0 (assets.map fun a => a.2.length))⟩ := by
    unfold NamedArchive.load
    simp only [h1, h2, h3]
    rw [if_pos (by rw [List.length_map, cumRanges_length, List.length_map]),
      if_pos hlastEnd]
  obtain ⟨s, e, hlk, hslice⟩ := lookup_slice_core assets [] hnd nm bl hmem
  refine ⟨_, hload, ?_⟩
  unfold NamedArchive.get
  simp only
  rw [show (([] : List Nat)).length = 0 from rfl] at hlk
  rw [hlk]
  show (sliceChecked ([] ++ listJoin (assets.map Prod.snd)) s e).map some = some (some bl)
  rw [hslice]
  rfl

/-- Witness for C1: a single asset with zero length content round trips
to an empty slice. -/
theorem named_roundtrip_witness :
    ∃ arch, NamedArchive.load uncompressedCodec ⟨[], 0, [97], 1, [0, 0, 0, 0], [[0]]⟩ =
      some arch ∧ arch.get [97] = some (some []) :=
  named_roundtrip lengthChecksum uncompressedCodec uncompressedCodec_lawful
    [([97], [])] ⟨[], 0, [97], 1, [0, 0, 0, 0], [[0]]⟩ (by decide) (by decide)
    [97] [] (by decide)

/-- C9: with valid names (unique, null free, byte valued) and an always
succeeding compressor, the builder accepts a manifest exactly when the
total uncompressed data size, the asset count and the uncompressed names
stream length are all at most u32Max.  The internal check that four times
the asset count fits in a u32 is subsumed: with distinct byte valued
names, an asset count above 2 to the 30 forces the names stream over
u32Max, because at most 257 cubed distinct names are shorter than four
bytes. -/
theorem builder_limits (hash : List Nat → Checksum) (c : Codec)
    (hc : ∀ d, ∃ out, c.compress d = some out)
    (assets : List (List Nat × List Nat))
    (hnd : (assets.map Prod.fst).Nodup)
    (hnull : ∀ nm ∈ assets.map Prod.fst, ∀ byte ∈ nm, byte ≠ 0)
    (hbyte : ∀ nm ∈ assets.map Prod.fst, ∀ byte ∈ nm, byte < 256) :
    (∃ pkg, prepare_named_archive hash c assets = some pkg) ↔
      ((listJoin (assets.map Prod.snd)).length ≤ u32Max ∧
        assets.length ≤ u32Max ∧
        (joinWithZero (assets.map Prod.fst)).length ≤ u32Max) := by
  constructor
  · intro ⟨pkg, hprep⟩
    obtain ⟨_, _, hjl, _, _, _, hcount, _, _, _, hdl, _⟩ := prepare_inv hprep
    exact ⟨hdl, by unfold u32Max at *; omega, hjl⟩
  · intro ⟨hd, _, hnm⟩
    have h4n : 4 * (assets.map Prod.fst).length ≤ u32Max :=
      names_count_bound hnd hbyte hnm
    rw [List.length_map] at h4n
    exact prepare_some hc hnd hnull hd hnm h4n

/-- Witness for C9 at a concrete one asset manifest within all limits. -/
theorem builder_limits_witness :
    ∃ pkg, prepare_named_archive lengthChecksum uncompressedCodec [([97], [5])] = some pkg :=
  (builder_limits lengthChecksum uncompressedCodec (fun d => ⟨d, rfl⟩) [([97], [5])]
    (by decide) (by decide) (by decide)).mpr ⟨by decide, by decide, by decide⟩

/-- Witness for C10: the concrete empty manifest package under the
Uncompressed codec fails to load. -/
theorem empty_manifest_load_fails_witness :
    NamedArchive.load uncompressedCodec ⟨[], 0, [], 0, [], []⟩ = none :=
  empty_manifest_load_fails lengthChecksum uncompressedCodec uncompressedCodec_lawful
    ⟨[], 0, [], 0, [], []⟩ (by decide)
